import Mathlib

/-!
Verification of `SerialHWinfo_0.1.cpp`.

The program reads byte chunks from a serial port, assembles newline-terminated
lines in `readBuffer`, trims each line, validates it with `std::stod` plus a
full-consumption check, and writes each value that differs from the previously
written one to a registry key.

Strings are modelled as `List Char` (the program works on single-byte ASCII
data).  Each definition below is a direct translation of the corresponding
piece of the C++ source; doc comments name the source construct.
-/

set_option maxHeartbeats 1000000
set_option maxRecDepth 100000

/-- C `isspace` in the default locale restricted to ASCII: space, tab,
newline, vertical tab, form feed, carriage return.  Used by `trim_ascii`
(line 32, cast to `unsigned char`) and by the trailing-whitespace skip in the
validator (line 161). -/
def isspaceA (c : Char) : Bool :=
  c = ' ' || c = '\t' || c = '\n' || c = '\x0b' || c = '\x0c' || c = '\r'

/-- C `isdigit` on ASCII. -/
def isdigitA (c : Char) : Bool :=
  '0' ≤ c && c ≤ '9'

/-- C `isxdigit` on ASCII (hexadecimal digit). -/
def isxdigitA (c : Char) : Bool :=
  isdigitA c || ('a' ≤ c && c ≤ 'f') || ('A' ≤ c && c ≤ 'F')

/-- C `isalpha` on ASCII. -/
def isalphaA (c : Char) : Bool :=
  ('a' ≤ c && c ≤ 'z') || ('A' ≤ c && c ≤ 'Z')

/-- C `tolower` on ASCII. -/
def tolowerA (c : Char) : Char :=
  if 'A' ≤ c && c ≤ 'Z' then Char.ofNat (c.toNat + 32) else c

/-- `trim_ascii` (source lines 30–37): drop leading characters while
`isspace`, then drop trailing characters while `isspace`.  The source walks a
`start` index forward over leading whitespace (the first `while` loop: a
`dropWhile`), returns `""` when everything was whitespace, and otherwise walks
an `end` index backwards over trailing whitespace (the second `while` loop: a
`dropWhile` on the reversed remainder) and returns the middle `substr`. -/
def trim_ascii (s : List Char) : List Char :=
  ((s.dropWhile isspaceA).reverse.dropWhile isspaceA).reverse

/-- Helper of the `strtod` model: an optional single `+`/`-` sign.  Returns
the number of characters consumed (0 or 1) and the remainder. -/
def signSplit : List Char → Nat × List Char
  | [] => (0, [])
  | c :: rest => if c = '+' || c = '-' then (1, rest) else (0, c :: rest)

/-- Helper of the `strtod` model: an optional exponent part introduced by
marker `m1`/`m2` (`e`/`E` for decimal, `p`/`P` for hexadecimal), with an
optional sign and at least one decimal digit.  If the digits are missing the
whole exponent is rolled back (0 characters consumed), as `strtod` requires
the longest initial subsequence of the expected form. -/
def expPart (m1 m2 : Char) (s : List Char) : Nat :=
  match s with
  | [] => 0
  | c :: rest =>
    if c = m1 || c = m2 then
      let p := signSplit rest
      let ds := p.2.takeWhile isdigitA
      if ds.isEmpty then 0 else 1 + p.1 + ds.length
    else 0

/-- Helper of the `strtod` model: a mantissa over digit class `dig` —
digits, optionally containing one decimal point, with at least one digit in
total.  Returns the number of characters consumed, or `none` if no digit is
present (no conversion). -/
def mantissaPart (dig : Char → Bool) (s : List Char) : Option Nat :=
  let d1 := s.takeWhile dig
  let r1 := s.dropWhile dig
  match r1 with
  | '.' :: r2 =>
    let d2 := r2.takeWhile dig
    if d1.isEmpty && d2.isEmpty then none
    else some (d1.length + 1 + d2.length)
  | _ => if d1.isEmpty then none else some d1.length

/-- Helper of the `strtod` model: a decimal floating-point body — decimal
mantissa followed by an optional `e`/`E` exponent. -/
def decBody (s : List Char) : Option Nat :=
  match mantissaPart isdigitA s with
  | some m => some (m + expPart 'e' 'E' (s.drop m))
  | none => none

/-- Helper of the `strtod` model: a numeric body — a hexadecimal
floating-point literal when the text starts with `0x`/`0X` and hexadecimal
digits follow (with an optional `p`/`P` binary exponent), otherwise a decimal
floating-point literal.  When `0x` is not followed by any hexadecimal digit
the subject sequence falls back to the decimal reading, which consumes just
the leading `0`. -/
def numBody (s : List Char) : Option Nat :=
  match s with
  | '0' :: x :: rest =>
    if x = 'x' || x = 'X' then
      match mantissaPart isxdigitA rest with
      | some m => some (2 + m + expPart 'p' 'P' (rest.drop m))
      | none => decBody s
    else decBody s
  | _ => decBody s

/-- Helper of the `strtod` model: case-insensitive match of `pat` as a prefix
of `s`. -/
def matchCI (pat : String) (s : List Char) : Bool :=
  (s.take pat.length).map tolowerA = pat.data

/-- Helper of the `strtod` model: a character allowed inside the optional
`nan(...)` payload sequence. -/
def nanSeqChar (c : Char) : Bool :=
  isdigitA c || isalphaA c || c = '_'

/-- Helper of the `strtod` model: the `infinity` / `inf` / `nan` /
`nan(n-char-seq)` special forms, case-insensitive.  A `nan(` without a
closing `)` rolls back to plain `nan`. -/
def specialBody (s : List Char) : Option Nat :=
  if matchCI "infinity" s then some 8
  else if matchCI "inf" s then some 3
  else if matchCI "nan" s then
    match s.drop 3 with
    | '(' :: rest =>
      let seq := rest.takeWhile nanSeqChar
      match rest.drop seq.length with
      | ')' :: _ => some (5 + seq.length)
      | _ => some 3
    | _ => some 3
  else none

/-- First half of the model of `std::stod(trimmed, &idx)` (source
line 160): the number of characters `strtod` consumes — leading whitespace,
an optional sign, then either a special form (`inf`/`nan`) or a numeric
body — or `none` when no conversion can be performed
(`std::invalid_argument`, caught at line 165).  The other failure mode of
`std::stod`, `std::out_of_range` for a syntactically valid literal whose
value falls outside `double` range (also caught at line 165), is modelled
by `stodRangeError` below. -/
def strtodLen (s : List Char) : Option Nat :=
  let wsl := (s.takeWhile isspaceA).length
  let s1 := s.drop wsl
  let p := signSplit s1
  match specialBody p.2 with
  | some n => some (wsl + p.1 + n)
  | none =>
    match numBody p.2 with
    | some n => some (wsl + p.1 + n)
    | none => none

/-- Value of a decimal digit string, most significant first. -/
def digitsVal (ds : List Char) : Nat :=
  ds.foldl (fun a c => 10 * a + (c.toNat - '0'.toNat)) 0

/-- Value of one hexadecimal digit. -/
def hexDigitVal (c : Char) : Nat :=
  if isdigitA c then c.toNat - '0'.toNat
  else if 'a' ≤ c && c ≤ 'f' then c.toNat - 'a'.toNat + 10
  else c.toNat - 'A'.toNat + 10

/-- Value of a hexadecimal digit string, most significant first. -/
def hexDigitsVal (ds : List Char) : Nat :=
  ds.foldl (fun a c => 16 * a + hexDigitVal c) 0

/-- Signed value of the exponent part that `expPart` consumes (0 when the
exponent is absent or rolled back). -/
def expVal (m1 m2 : Char) (s : List Char) : Int :=
  match s with
  | [] => 0
  | c :: rest =>
    if c = m1 || c = m2 then
      match rest with
      | '-' :: r2 =>
        let ds := r2.takeWhile isdigitA
        if ds.isEmpty then 0 else - Int.ofNat (digitsVal ds)
      | '+' :: r2 =>
        let ds := r2.takeWhile isdigitA
        if ds.isEmpty then 0 else Int.ofNat (digitsVal ds)
      | _ =>
        let ds := rest.takeWhile isdigitA
        if ds.isEmpty then 0 else Int.ofNat (digitsVal ds)
    else 0

/-- The IEEE-754 `double` overflow threshold `2^1024 - 2^970`: under
round-to-nearest-even, a magnitude at or above this bound rounds to
infinity, which is exactly when `strtod` must return `HUGE_VAL` and set
`ERANGE` (C17 7.22.1.3), making `std::stod` throw `std::out_of_range`. -/
def dblOverflowBound : Nat := 2 ^ 970 * (2 ^ 54 - 1)

/-- Whether the magnitude `n * base ^ e` reaches the `double` overflow
threshold; `dblOverflowBound ≤ n * base ^ e` cleared of the negative
exponent by multiplying the bound instead. -/
def overflowAt (base n : Nat) (e : Int) : Bool :=
  if 0 ≤ e then dblOverflowBound ≤ n * base ^ e.toNat
  else dblOverflowBound * base ^ (-e).toNat ≤ n

/-- Numerator of the `double` underflow threshold
`2^-1022 - 2^-1076 = (2^54 - 1) / 2^1076`: a non-zero magnitude below it
rounds to a subnormal or to zero under round-to-nearest-even. -/
def dblUnderflowBound : Nat := 2 ^ 54 - 1

/-- Whether the non-zero magnitude `n * base ^ e` rounds below the
smallest normal `double` (the comparison with
`dblUnderflowBound / 2 ^ 1076` cleared of denominators).  The C standard
leaves it implementation-defined whether `strtod` reports `ERANGE` on such
an underflow (C17 7.22.1.3p10); the Windows CRT that this Win32 program is
built against documents that it does, so the model treats underflow as a
range error like overflow. -/
def underflowAt (base n : Nat) (e : Int) : Bool :=
  if n = 0 then false
  else if 0 ≤ e then n * base ^ e.toNat * 2 ^ 1076 < dblUnderflowBound
  else n * 2 ^ 1076 < dblUnderflowBound * base ^ (-e).toNat

/-- Range error of the decimal subject sequence that `decBody` consumes:
its exact magnitude `digits * 10 ^ exponent` (the fraction folded into the
exponent) overflows or underflows `double` range. -/
def decRangeError (s : List Char) : Bool :=
  let d1 := s.takeWhile isdigitA
  let r1 := s.dropWhile isdigitA
  let fr :=
    match r1 with
    | '.' :: r2 => (r2.takeWhile isdigitA, r2.dropWhile isdigitA)
    | _ => ([], r1)
  let n := digitsVal (d1 ++ fr.1)
  let e := expVal 'e' 'E' fr.2 - Int.ofNat fr.1.length
  overflowAt 10 n e || underflowAt 10 n e

/-- Range error of the hexadecimal subject sequence after `0x`: its exact
magnitude `hexdigits * 2 ^ exponent` (each fraction digit contributing
`2^-4`) overflows or underflows `double` range. -/
def hexRangeError (s : List Char) : Bool :=
  let d1 := s.takeWhile isxdigitA
  let r1 := s.dropWhile isxdigitA
  let fr :=
    match r1 with
    | '.' :: r2 => (r2.takeWhile isxdigitA, r2.dropWhile isxdigitA)
    | _ => ([], r1)
  let n := hexDigitsVal (d1 ++ fr.1)
  let e := expVal 'p' 'P' fr.2 - 4 * Int.ofNat fr.1.length
  overflowAt 2 n e || underflowAt 2 n e

/-- Range error of the numeric body, following the same branch selection as
`numBody`: the hexadecimal value when the `0x` form applies, otherwise the
decimal value (the `0x`-without-digits fallback consumes just `0`, whose
value never errors). -/
def numRangeError (s : List Char) : Bool :=
  match s with
  | '0' :: x :: rest =>
    if x = 'x' || x = 'X' then
      match mantissaPart isxdigitA rest with
      | some _ => hexRangeError rest
      | none => decRangeError s
    else decRangeError s
  | _ => decRangeError s

/-- Second half of the `std::stod` model: whether the call throws
`std::out_of_range` (strtod sets `ERANGE`) — the consumed literal is a
numeric body whose exact value falls out of `double` range.  The
`inf`/`nan` forms never raise a range error. -/
def stodRangeError (s : List Char) : Bool :=
  let wsl := (s.takeWhile isspaceA).length
  let s1 := s.drop wsl
  let p := signSplit s1
  match specialBody p.2 with
  | some _ => false
  | none =>
    match numBody p.2 with
    | some _ => numRangeError p.2
    | none => false

/-- Outcome of the per-line validation block (source lines 154–170):
`skipped` — trimmed text empty, `continue` with no output (line 155);
`reported` — invalid, the "Ignored non-numeric line" message (line 167);
`reading` — a validated reading carrying the trimmed text verbatim. -/
inductive LineResult where
  | skipped : LineResult
  | reported : List Char → LineResult
  | reading : List Char → LineResult
deriving DecidableEq, Repr

/-- The validation block of the read loop (source lines 154–170): trim the
raw line; silently skip if empty; run `std::stod` — a throw of
`std::invalid_argument` (no conversion, `strtodLen` is `none`) or of
`std::out_of_range` (`stodRangeError`) lands in the `catch (...)` and marks
the line invalid — and then skip trailing whitespace from the consumed
position (`while (idx < trimmed.size() && isspace(trimmed[idx])) ++idx`,
modelled as adding the length of the whitespace prefix of the remainder);
the line is valid exactly when the final index reaches the end of the
trimmed text. -/
def validateLine (line : List Char) : LineResult :=
  let trimmed := trim_ascii line
  if trimmed.isEmpty then .skipped
  else
    match strtodLen trimmed with
    | none => .reported trimmed
    | some idx =>
      if stodRangeError trimmed then .reported trimmed
      else
        let idx2 := idx + ((trimmed.drop idx).takeWhile isspaceA).length
        if idx2 = trimmed.length then .reading trimmed else .reported trimmed

/-- Spec-side definition, following the spec's words "parse the entire
trimmed text as a decimal floating-point literal": an optional sign followed
by a decimal mantissa (digits with an optional decimal point, at least one
digit) and an optional `e`/`E` exponent, consuming the entire string.  This
is the spec's notion of "decimal numeric literal", stated for comparison
with the `strtod` behaviour of the source. -/
def isDecimalLit (s : List Char) : Bool :=
  let p := signSplit s
  match decBody p.2 with
  | some n => n = p.2.length
  | none => false

/-- The search for a complete line in the buffer (source lines 147–149):
`pos = readBuffer.find('\n')`, `line = substr(0, pos + 1)`,
`erase(0, pos + 1)`, combined into one operation — the prefix of the buffer
through the first newline (the extracted `line`, terminator included) and
the remaining buffer, or `none` when the buffer holds no newline
(`find` returns `npos` and the inner `while` loop stops). -/
def splitAtNl : List Char → Option (List Char × List Char)
  | [] => none
  | c :: cs =>
    if c = '\n' then some ([c], cs)
    else
      match splitAtNl cs with
      | none => none
      | some (l, r) => some (c :: l, r)

theorem splitAtNl_rest_lt : ∀ (s l r : List Char), splitAtNl s = some (l, r) → r.length < s.length := by
  intro s
  induction s with
  | nil => intro l r h; simp [splitAtNl] at h
  | cons c cs ih =>
    intro l r h
    simp only [splitAtNl] at h
    by_cases hc : c = '\n'
    · rw [if_pos hc] at h
      injection h with h
      injection h with h1 h2
      rw [← h2]
      simp
    · rw [if_neg hc] at h
      match hcs : splitAtNl cs with
      | none => rw [hcs] at h; exact absurd h (by simp)
      | some (l', r') =>
        rw [hcs] at h
        injection h with h
        injection h with h1 h2
        rw [← h2]
        have := ih l' r' hcs
        simp only [List.length_cons]
        omega

/-- The inner `while ((pos = readBuffer.find('\n')) != npos)` loop of the
read loop (source lines 148–152), restricted to the line *extraction* it
performs: repeatedly split off the prefix through the first newline.
Returns the extracted lines (each including its `'\n'` terminator) in
order, and the final buffer contents. -/
def drainLines (buf : List Char) : List (List Char) × List Char :=
  match h : splitAtNl buf with
  | none => ([], buf)
  | some (l, r) =>
    let p := drainLines r
    (l :: p.1, p.2)
termination_by buf.length
decreasing_by exact splitAtNl_rest_lt buf l r h

/-- One read-loop iteration's feeding of the assembler (source line 145 and
the inner loop): append the chunk to the buffer, then extract every complete
line. -/
def feedChunk (buf chunk : List Char) : List (List Char) × List Char :=
  drainLines (buf ++ chunk)

/-- The line assembler run over a whole sequence of chunks: iterate
`feedChunk` starting from buffer `buf`, collecting all extracted lines in
order. -/
def runAssembler (buf : List Char) : List (List Char) → List (List Char) × List Char
  | [] => ([], buf)
  | c :: cs =>
    let p := feedChunk buf c
    let q := runAssembler p.2 cs
    (p.1 ++ q.1, q.2)

/-- Spec-side definition, following the spec's words "the lines obtained by
splitting the concatenation on newline": split a character sequence on the
newline byte; `n` newlines yield `n + 1` segments (terminators not
included), the last segment being the text after the final newline. -/
def splitNl : List Char → List (List Char)
  | [] => [[]]
  | c :: cs =>
    if c = '\n' then [] :: splitNl cs
    else
      match splitNl cs with
      | [] => [[c]]
      | l :: ls => (c :: l) :: ls

/-- The segment after the last newline of `s` — the spec's "trailing
segment not yet terminated by a newline". -/
def lastSeg (s : List Char) : List Char :=
  (splitNl s).getLastD []

theorem splitNl_ne_nil : ∀ s : List Char, splitNl s ≠ [] := by
  intro s
  cases s with
  | nil => simp [splitNl]
  | cons c cs =>
    simp only [splitNl]
    by_cases hc : c = '\n'
    · rw [if_pos hc]; simp
    · rw [if_neg hc]
      match splitNl cs with
      | [] => simp
      | l :: ls => simp

theorem getLastD_cons_of_ne_nil {α : Type} (a : α) (l : List α) (d : α) (h : l ≠ []) :
    (a :: l).getLastD d = l.getLastD d := by
  match l with
  | y :: ys => simp [List.getLastD_eq_getLast?, List.getLast?_cons_cons]

theorem splitAtNl_none_split : ∀ s : List Char, splitAtNl s = none → splitNl s = [s] := by
  intro s
  induction s with
  | nil => intro _; rfl
  | cons c cs ih =>
    intro h
    simp only [splitAtNl] at h
    by_cases hc : c = '\n'
    · rw [if_pos hc] at h; exact absurd h (by simp)
    · rw [if_neg hc] at h
      match hcs : splitAtNl cs with
      | some (l', r') => rw [hcs] at h; exact absurd h (by simp)
      | none =>
        have h2 := ih hcs
        simp only [splitNl, if_neg hc, h2]

theorem splitAtNl_some_split : ∀ (s l r : List Char), splitAtNl s = some (l, r) →
    ∃ a, l = a ++ ['\n'] ∧ splitNl s = a :: splitNl r := by
  intro s
  induction s with
  | nil => intro l r h; simp [splitAtNl] at h
  | cons c cs ih =>
    intro l r h
    simp only [splitAtNl] at h
    by_cases hc : c = '\n'
    · rw [if_pos hc] at h
      injection h with h
      injection h with h1 h2
      subst hc
      subst h2
      refine ⟨[], by simp [← h1], ?_⟩
      simp [splitNl]
    · rw [if_neg hc] at h
      match hcs : splitAtNl cs with
      | none => rw [hcs] at h; exact absurd h (by simp)
      | some (l', r') =>
        rw [hcs] at h
        injection h with h
        injection h with h1 h2
        subst h2
        obtain ⟨a, ha1, ha2⟩ := ih l' r' hcs
        refine ⟨c :: a, by simp [← h1, ha1], ?_⟩
        simp only [splitNl, if_neg hc, ha2]

theorem drainLines_none (s : List Char) (hs : splitAtNl s = none) : drainLines s = ([], s) := by
  unfold drainLines
  split
  · rfl
  · next l r heq => rw [hs] at heq; exact absurd heq (by simp)

theorem drainLines_some (s l r : List Char) (hs : splitAtNl s = some (l, r)) :
    drainLines s = (l :: (drainLines r).1, (drainLines r).2) := by
  conv_lhs => unfold drainLines
  split
  · next heq => rw [hs] at heq; exact absurd heq (by simp)
  · next l' r' heq =>
    rw [hs] at heq
    injection heq with heq
    injection heq with h1 h2
    subst h1
    subst h2
    rfl

/-- The extraction loop agrees with splitting on newline: the extracted
lines are the split segments other than the last, each with its newline
restored, and the remaining buffer is the trailing segment. -/
theorem drainLines_eq : ∀ buf : List Char,
    drainLines buf = (((splitNl buf).dropLast).map (fun a => a ++ ['\n']), lastSeg buf) := by
  intro buf
  induction buf using drainLines.induct with
  | case1 s hs =>
    rw [drainLines_none s hs, splitAtNl_none_split s hs]
    simp [lastSeg, splitAtNl_none_split s hs]
  | case2 s l r hs ih =>
    obtain ⟨a, ha1, ha2⟩ := splitAtNl_some_split s l r hs
    rw [drainLines_some s l r hs, ih, ha1]
    simp only [lastSeg, ha2, Prod.mk.injEq]
    have hne := splitNl_ne_nil r
    constructor
    · match hsr : splitNl r, hne with
      | x :: xs, _ => simp [hsr]
    · exact (getLastD_cons_of_ne_nil a (splitNl r) [] hne).symm

theorem splitNl_cons_ne (c : Char) (cs : List Char) (hc : ¬ c = '\n') (x : List Char)
    (xs : List (List Char)) (h : splitNl cs = x :: xs) :
    splitNl (c :: cs) = (c :: x) :: xs := by
  simp only [splitNl, if_neg hc, h]

theorem splitAtNl_eq_none_of_no_nl : ∀ s : List Char, '\n' ∉ s → splitAtNl s = none := by
  intro s
  induction s with
  | nil => intro _; rfl
  | cons c cs ih =>
    intro h
    have hc : ¬ c = '\n' := fun he => h (he ▸ List.mem_cons_self c cs)
    have hcs : '\n' ∉ cs := fun hm => h (List.mem_cons_of_mem c hm)
    simp only [splitAtNl, if_neg hc, ih hcs]

theorem splitNl_of_no_nl (s : List Char) (h : '\n' ∉ s) : splitNl s = [s] :=
  splitAtNl_none_split s (splitAtNl_eq_none_of_no_nl s h)

theorem lastSeg_no_nl : ∀ s : List Char, '\n' ∉ lastSeg s := by
  intro s
  induction s with
  | nil => simp [lastSeg, splitNl]
  | cons c cs ih =>
    by_cases hc : c = '\n'
    · subst hc
      have h2 : splitNl ('\n' :: cs) = [] :: splitNl cs := by simp [splitNl]
      have h3 : lastSeg ('\n' :: cs) = lastSeg cs := by
        simp only [lastSeg, h2]
        exact getLastD_cons_of_ne_nil [] (splitNl cs) [] (splitNl_ne_nil cs)
      rw [h3]; exact ih
    · match hcs : splitNl cs, splitNl_ne_nil cs with
      | [y], _ =>
        have h2 : splitNl (c :: cs) = [c :: y] := splitNl_cons_ne c cs hc y [] hcs
        have hy : lastSeg cs = y := by simp [lastSeg, hcs]
        have hlc : lastSeg (c :: cs) = c :: y := by simp [lastSeg, h2]
        rw [hlc]
        intro hm
        rcases List.mem_cons.mp hm with h | h
        · exact hc h.symm
        · exact ih (hy ▸ h)
      | y :: z :: zs, _ =>
        have h2 : splitNl (c :: cs) = (c :: y) :: z :: zs := splitNl_cons_ne c cs hc y (z :: zs) hcs
        have hlc : lastSeg (c :: cs) = lastSeg cs := by
          simp only [lastSeg, h2, hcs]
          rw [getLastD_cons_of_ne_nil (c :: y) (z :: zs) [] (by simp),
            getLastD_cons_of_ne_nil y (z :: zs) [] (by simp)]
        rw [hlc]; exact ih

/-- Splitting a concatenation on newline: the segments of `s ++ t` are the
non-final segments of `s` followed by the segments of the trailing segment
of `s` glued onto `t`. -/
theorem splitNl_append : ∀ s t : List Char,
    splitNl (s ++ t) = (splitNl s).dropLast ++ splitNl (lastSeg s ++ t) := by
  intro s
  induction s with
  | nil => intro t; simp [splitNl, lastSeg]
  | cons c cs ih =>
    intro t
    by_cases hc : c = '\n'
    · subst hc
      have h1 : splitNl (('\n' :: cs) ++ t) = [] :: splitNl (cs ++ t) := by simp [splitNl]
      have h2 : splitNl ('\n' :: cs) = [] :: splitNl cs := by simp [splitNl]
      have h3 : lastSeg ('\n' :: cs) = lastSeg cs := by
        simp only [lastSeg, h2]
        exact getLastD_cons_of_ne_nil [] (splitNl cs) [] (splitNl_ne_nil cs)
      rw [h1, h2, ih t, h3, List.dropLast_cons_of_ne_nil (splitNl_ne_nil cs)]
      simp
    · match hcst : splitNl (cs ++ t), splitNl_ne_nil (cs ++ t) with
      | x :: xs, _ =>
        have hL : splitNl ((c :: cs) ++ t) = (c :: x) :: xs := by
          rw [List.cons_append]
          exact splitNl_cons_ne c (cs ++ t) hc x xs hcst
        match hcs : splitNl cs, splitNl_ne_nil cs with
        | [y], _ =>
          have h2 : splitNl (c :: cs) = [c :: y] := splitNl_cons_ne c cs hc y [] hcs
          have hy : lastSeg cs = y := by simp [lastSeg, hcs]
          have hlc : lastSeg (c :: cs) = c :: y := by simp [lastSeg, h2]
          have hone : splitNl (y ++ t) = x :: xs := by
            have := ih t
            rw [hcs, hy] at this
            simp only [List.dropLast_single, List.nil_append] at this
            rw [← this, hcst]
          rw [hL, h2, hlc]
          simp only [List.dropLast_single, List.nil_append, List.cons_append]
          exact (splitNl_cons_ne c (y ++ t) hc x xs hone).symm
        | y :: z :: zs, _ =>
          have h2 : splitNl (c :: cs) = (c :: y) :: z :: zs := splitNl_cons_ne c cs hc y (z :: zs) hcs
          have hlc : lastSeg (c :: cs) = lastSeg cs := by
            simp only [lastSeg, h2, hcs]
            rw [getLastD_cons_of_ne_nil (c :: y) (z :: zs) [] (by simp),
              getLastD_cons_of_ne_nil y (z :: zs) [] (by simp)]
          have hx : x :: xs = y :: ((z :: zs).dropLast ++ splitNl (lastSeg cs ++ t)) := by
            rw [← hcst, ih t, hcs, List.dropLast_cons_of_ne_nil (by simp)]
            simp
          injection hx with hx1 hx2
          rw [hL, h2, hlc, List.dropLast_cons_of_ne_nil (by simp)]
          subst hx1
          rw [hx2]
          simp

theorem getLastD_append_of_ne_nil {α : Type} (X Y : List α) (d : α) (h : Y ≠ []) :
    (X ++ Y).getLastD d = Y.getLastD d := by
  rw [List.getLastD_eq_getLast?, List.getLastD_eq_getLast?, List.getLast?_append_of_ne_nil X h]

theorem lastSeg_append_left (s t : List Char) :
    lastSeg (s ++ t) = lastSeg (lastSeg s ++ t) := by
  simp only [lastSeg, splitNl_append s t]
  exact getLastD_append_of_ne_nil _ _ [] (splitNl_ne_nil (lastSeg s ++ t))

/-- Running the assembler from a newline-free buffer over a chunk sequence:
the emitted lines are the non-final newline-split segments of
`buf ++ concatenation`, each with its terminator restored, and the final
buffer is the trailing segment. -/
theorem runAssembler_spec : ∀ (cs : List (List Char)) (buf : List Char), '\n' ∉ buf →
    runAssembler buf cs =
      (((splitNl (buf ++ cs.flatten)).dropLast).map (fun a => a ++ ['\n']),
        lastSeg (buf ++ cs.flatten)) := by
  intro cs
  induction cs with
  | nil =>
    intro buf hb
    simp only [runAssembler, List.flatten_nil, List.append_nil]
    rw [splitNl_of_no_nl buf hb]
    simp [lastSeg, splitNl_of_no_nl buf hb]
  | cons chunk cs ih =>
    intro buf hb
    simp only [runAssembler, feedChunk]
    rw [drainLines_eq (buf ++ chunk)]
    rw [ih (lastSeg (buf ++ chunk)) (lastSeg_no_nl (buf ++ chunk))]
    have hassoc : buf ++ (chunk :: cs).flatten = (buf ++ chunk) ++ cs.flatten := by
      simp [List.flatten_cons, List.append_assoc]
    rw [hassoc, splitNl_append (buf ++ chunk) cs.flatten]
    rw [List.dropLast_append_of_ne_nil _ (splitNl_ne_nil (lastSeg (buf ++ chunk) ++ cs.flatten))]
    rw [List.map_append]
    rw [← lastSeg_append_left (buf ++ chunk) cs.flatten]

/-- The change-detection and registry-write block (source lines 172–185)
applied to one extracted raw line, validation included (lines 154–170):
returns the registry `Value` write performed, if any, and the new
`lastValueWritten`. -/
def processLine (last line : List Char) : Option (List Char) × List Char :=
  match validateLine line with
  | .reading t => if t = last then (none, last) else (some t, t)
  | _ => (none, last)

/-- `processLine` folded over a list of raw lines in order, collecting the
write attempts. -/
def processLines (last : List Char) : List (List Char) → List Char × List (List Char)
  | [] => (last, [])
  | l :: ls =>
    let p := processLine last l
    let q := processLines p.2 ls
    (q.1, p.1.toList ++ q.2)

/-- The full inner `while` loop of the read loop (source lines 148–186):
extract each complete line from the buffer and immediately run it through
trimming, validation, change detection and the registry write.  Returns the
final buffer, the final `lastValueWritten` and the write attempts in
order. -/
def innerLoop (last buf : List Char) : List Char × List Char × List (List Char) :=
  match h : splitAtNl buf with
  | none => (buf, last, [])
  | some (line, rest) =>
    let p := processLine last line
    let q := innerLoop p.2 rest
    (q.1, q.2.1, p.1.toList ++ q.2.2)
termination_by buf.length
decreasing_by exact splitAtNl_rest_lt buf line rest h

theorem innerLoop_none (last buf : List Char) (hs : splitAtNl buf = none) :
    innerLoop last buf = (buf, last, []) := by
  conv_lhs => unfold innerLoop
  split
  · rfl
  · next l r heq => rw [hs] at heq; exact absurd heq (by simp)

theorem innerLoop_some (last buf line rest : List Char) (hs : splitAtNl buf = some (line, rest)) :
    innerLoop last buf =
      ((innerLoop (processLine last line).2 rest).1,
        (innerLoop (processLine last line).2 rest).2.1,
        (processLine last line).1.toList ++ (innerLoop (processLine last line).2 rest).2.2) := by
  conv_lhs => unfold innerLoop
  split
  · next heq => rw [hs] at heq; exact absurd heq (by simp)
  · next l' r' heq =>
    rw [hs] at heq
    injection heq with heq
    injection heq with h1 h2
    subst h1
    subst h2
    rfl

/-- Since processing an extracted line never touches the buffer, the inner
loop is the extraction loop followed by processing the extracted lines in
order. -/
theorem innerLoop_decomp : ∀ (buf last : List Char),
    innerLoop last buf =
      ((drainLines buf).2, (processLines last (drainLines buf).1).1,
        (processLines last (drainLines buf).1).2) := by
  intro buf
  induction buf using drainLines.induct with
  | case1 s hs =>
    intro last
    rw [innerLoop_none last s hs, drainLines_none s hs]
    simp [processLines]
  | case2 s l r hs ih =>
    intro last
    rw [innerLoop_some last s l r hs, drainLines_some s l r hs, ih]
    simp [processLines]

/-- The mutable state of the read loop (source lines 126–129): the line
buffer `readBuffer`, the change-detection state `lastValueWritten`, plus
the accumulated sequence of registry `Value` write attempts (the calls to
`RegSetValueExW(hKey, L"Value", ...)`, recorded with the text written). -/
structure LoopState where
  readBuffer : List Char
  lastValueWritten : List Char
  valueWrites : List (List Char)
deriving DecidableEq, Repr

/-- The state at entry of the read loop: `readBuffer` empty, and
`lastValueWritten` default-constructed to the empty string
(`std::string lastValueWritten;`, source line 129). -/
def initState : LoopState :=
  { readBuffer := [], lastValueWritten := [], valueWrites := [] }

/-- Outcome of one `ReadFile` call (source line 132): `readError` —
`ReadFile` returned `FALSE` (report unless aborted, `Sleep(50)`,
`continue`); `data bytes` — success with `bytesRead` bytes, the empty list
being the timeout case (`Sleep(10)`, `continue`). -/
inductive ReadResult where
  | readError : ReadResult
  | data : List Char → ReadResult
deriving DecidableEq, Repr

/-- The `while (g_running.load())` read loop (source lines 131–187) over a
finite schedule of `ReadFile` outcomes — the iterations executed before the
run flag is observed cleared.  A failed or empty read leaves the state
unchanged; received bytes are appended to the buffer and every complete
line is extracted and processed. -/
def runLoop (st : LoopState) : List ReadResult → LoopState
  | [] => st
  | r :: rs =>
    match r with
    | .readError => runLoop st rs
    | .data [] => runLoop st rs
    | .data (b :: bs) =>
      let q := innerLoop st.lastValueWritten (st.readBuffer ++ (b :: bs))
      runLoop { readBuffer := q.1, lastValueWritten := q.2.1,
                valueWrites := st.valueWrites ++ q.2.2 } rs

/-- Success/failure of each fallible startup call of `wmain`
(source lines 58–122): `CreateFileW`, `GetCommState`, `SetCommState`,
`SetCommTimeouts` (whose result the source ignores), `RegCreateKeyExW`,
and the `Name` metadata `RegSetValueExW` (whose failure is only a
warning). -/
structure StartupEnv where
  openOk : Bool
  getCommOk : Bool
  setCommOk : Bool
  setTimeoutsOk : Bool
  regCreateOk : Bool
  nameWriteOk : Bool
deriving DecidableEq, Repr

/-- Observable outcome of a `wmain` run: the process exit code, the number
of read-loop iterations executed, and the registry `Value` write attempts
in order. -/
structure RunResult where
  exitCode : Nat
  iterations : Nat
  valueWrites : List (List Char)
deriving DecidableEq, Repr

/-- `wmain` (source lines 53–193): each failing startup step —
`CreateFileW` (line 67), `GetCommState` (line 75), `SetCommState`
(line 86), `RegCreateKeyExW` (line 109) — prints an error and returns 1
before the read loop; `SetCommTimeouts` (line 98) and the `Name` metadata
write (line 117) are not checked for failure (the latter only warns).
Otherwise the read loop runs until the run flag is cleared (modelled by the
exhaustion of the finite `reads` schedule) and the process returns 0
(line 192). -/
def wmain (env : StartupEnv) (reads : List ReadResult) : RunResult :=
  if env.openOk = false then { exitCode := 1, iterations := 0, valueWrites := [] }
  else if env.getCommOk = false then { exitCode := 1, iterations := 0, valueWrites := [] }
  else if env.setCommOk = false then { exitCode := 1, iterations := 0, valueWrites := [] }
  else if env.regCreateOk = false then { exitCode := 1, iterations := 0, valueWrites := [] }
  else
    let fin := runLoop initState reads
    { exitCode := 0, iterations := reads.length, valueWrites := fin.valueWrites }

/-- The change-detection gate (source lines 172–181) at the level of
validated readings: a reading equal to `lastValueWritten` is suppressed;
a different one is written and becomes the new `lastValueWritten`.
Returns the sequence of written values. -/
def gateRun (last : List Char) : List (List Char) → List (List Char)
  | [] => []
  | r :: rs => if r = last then gateRun last rs else r :: gateRun r rs

/-- State of the change-detection gate when the outcome of each registry
write is tracked: the `lastValueWritten` string, the write attempts, the
attempts whose `RegSetValueExW` returned an error (reported at source
line 179), and the count of attempts made (used to consult the outcome
oracle). -/
structure GateState where
  lastWritten : List Char
  attempts : List (List Char)
  failed : List (List Char)
  tick : Nat
deriving DecidableEq, Repr

/-- One gate step (source lines 172–181) with an explicit outcome oracle
for the registry write: when the reading differs from `lastWritten`, the
source first assigns `lastValueWritten = trimmed` (line 173) and only then
calls `RegSetValueExW` (line 176), whose success or failure (`oracle`)
influences nothing but the message printed. -/
def gateStepE (oracle : Nat → Bool) (st : GateState) (r : List Char) : GateState :=
  if r = st.lastWritten then st
  else
    { lastWritten := r
      attempts := st.attempts ++ [r]
      failed := st.failed ++ (if oracle st.tick then [] else [r])
      tick := st.tick + 1 }

/-- The oracle-tracking gate folded over a sequence of validated
readings. -/
def gateRunE (oracle : Nat → Bool) (st : GateState) : List (List Char) → GateState
  | [] => st
  | r :: rs => gateRunE oracle (gateStepE oracle st r) rs

/-- The validated reading produced by a line, if any. -/
def readingOf : LineResult → Option (List Char)
  | .reading t => some t
  | _ => none

theorem dropWhile_head_false {p : Char → Bool} : ∀ (l : List Char) (c : Char) (cs : List Char),
    l.dropWhile p = c :: cs → p c = false := by
  intro l
  induction l with
  | nil => intro c cs h; simp [List.dropWhile] at h
  | cons a as ih =>
    intro c cs h
    rw [List.dropWhile_cons] at h
    by_cases hp : p a
    · rw [if_pos hp] at h; exact ih c cs h
    · rw [if_neg hp] at h
      injection h with h1 h2
      rw [← h1]
      simpa using hp

/-- The trimmed text never ends in whitespace. -/
theorem trim_getLast_not_space : ∀ (s : List Char) (c : Char),
    (trim_ascii s).getLast? = some c → isspaceA c = false := by
  intro s c h
  unfold trim_ascii at h
  rw [List.getLast?_reverse] at h
  match hd : ((s.dropWhile isspaceA).reverse.dropWhile isspaceA) with
  | [] => rw [hd] at h; simp at h
  | x :: xs =>
    rw [hd] at h
    simp only [List.head?_cons, Option.some.injEq] at h
    rw [← h]
    exact dropWhile_head_false _ x xs hd

theorem list_mem_of_getLast? {α : Type} (l : List α) (c : α) (h : l.getLast? = some c) : c ∈ l := by
  obtain ⟨h0, hceq⟩ := List.mem_getLast?_eq_getLast (Option.mem_def.mpr h)
  rw [hceq]
  exact List.getLast_mem h0

/-- If `stod` succeeds on the trimmed text and the trailing-whitespace skip
reaches the end, then `stod` already consumed the whole text: the trimmed
text cannot end in whitespace. -/
theorem strtod_consumed_all (line : List Char) (idx : Nat)
    (hfull : idx + (((trim_ascii line).drop idx).takeWhile isspaceA).length
      = (trim_ascii line).length) :
    idx = (trim_ascii line).length := by
  by_cases hlt : idx < (trim_ascii line).length
  · exfalso
    have hdl : ((trim_ascii line).drop idx).length = (trim_ascii line).length - idx :=
      List.length_drop idx (trim_ascii line)
    have hw : (((trim_ascii line).drop idx).takeWhile isspaceA).length
        = ((trim_ascii line).drop idx).length := by omega
    have hpre := List.takeWhile_prefix (l := (trim_ascii line).drop idx) isspaceA
    have heq : ((trim_ascii line).drop idx).takeWhile isspaceA = (trim_ascii line).drop idx :=
      hpre.eq_of_length hw
    have hne : (trim_ascii line).drop idx ≠ [] := by
      intro hnil
      rw [hnil] at hdl
      simp at hdl
      omega
    have hsome := List.getLast?_isSome.mpr hne
    obtain ⟨c, hc⟩ := Option.isSome_iff_exists.mp hsome
    have hcm : c ∈ (trim_ascii line).drop idx := list_mem_of_getLast? _ c hc
    have hcs : isspaceA c = true := List.mem_takeWhile_imp (heq ▸ hcm)
    have hctr : (trim_ascii line).getLast? = some c := by
      conv_lhs => rw [← List.take_append_drop idx (trim_ascii line)]
      rw [List.getLast?_append_of_ne_nil _ hne]
      exact hc
    have := trim_getLast_not_space line c hctr
    rw [hcs] at this
    exact Bool.true_eq_false.mp this
  · omega

/-- Characterisation of the validator: a line yields a reading with text
`t` exactly when `t` is its trimmed form, is non-empty, and `stod` consumes
it entirely. -/
theorem validate_reading_iff : ∀ (line t : List Char),
    validateLine line = .reading t ↔
      (t = trim_ascii line ∧ t ≠ [] ∧ strtodLen t = some t.length
        ∧ stodRangeError t = false) := by
  intro line t
  unfold validateLine
  match htr : trim_ascii line with
  | [] =>
    simp only [List.isEmpty_nil, if_pos rfl]
    constructor
    · intro h; exact absurd h (by simp)
    · rintro ⟨rfl, h2, _⟩; exact absurd rfl h2
  | c :: cs =>
    simp only [List.isEmpty_cons, if_neg Bool.false_ne_true]
    match hs : strtodLen (c :: cs) with
    | none =>
      constructor
      · intro h; exact absurd h (by simp)
      · rintro ⟨rfl, _, h3, _⟩
        rw [hs] at h3
        exact absurd h3 (by simp)
    | some idx =>
      change (if stodRangeError (c :: cs) then LineResult.reported (c :: cs)
          else if idx + (((c :: cs).drop idx).takeWhile isspaceA).length = (c :: cs).length then
            LineResult.reading (c :: cs)
          else LineResult.reported (c :: cs)) = LineResult.reading t ↔
        (t = c :: cs ∧ t ≠ [] ∧ strtodLen t = some t.length ∧ stodRangeError t = false)
      by_cases hre : stodRangeError (c :: cs) = true
      · rw [if_pos hre]
        constructor
        · intro h; exact absurd h (by simp)
        · rintro ⟨rfl, _, _, h4⟩
          rw [hre] at h4
          exact absurd h4 (by simp)
      · rw [if_neg hre]
        have hre' : stodRangeError (c :: cs) = false := by simpa using hre
        by_cases hfull : idx + (((c :: cs).drop idx).takeWhile isspaceA).length = (c :: cs).length
        · rw [if_pos hfull]
          constructor
          · intro h
            injection h with h1
            have hidx : idx = (c :: cs).length := by
              have := strtod_consumed_all line idx (by rw [htr]; exact hfull)
              rwa [htr] at this
            refine ⟨h1.symm, by rw [← h1]; simp, ?_, ?_⟩
            · rw [← h1, hs, hidx]
            · rw [← h1]
              exact hre'
          · intro hr
            rw [hr.1]
        · rw [if_neg hfull]
          constructor
          · intro h; exact absurd h (by simp)
          · rintro ⟨rfl, _, h3, _⟩
            rw [hs] at h3
            injection h3 with h3
            exfalso
            apply hfull
            rw [h3, List.drop_length]
            simp

theorem dropWhile_all_nil {p : Char → Bool} (l : List Char) (h : ∀ c ∈ l, p c = true) :
    l.dropWhile p = [] :=
  List.dropWhile_eq_nil_iff.mpr h

theorem dropWhile_append_nil {p : Char → Bool} : ∀ (l₁ l₂ : List Char), l₁.dropWhile p = [] →
    (l₁ ++ l₂).dropWhile p = l₂.dropWhile p := by
  intro l₁
  induction l₁ with
  | nil => intro l₂ _; rfl
  | cons a as ih =>
    intro l₂ h
    rw [List.dropWhile_cons] at h
    by_cases hp : p a
    · rw [List.cons_append, List.dropWhile_cons, if_pos hp]
      exact ih l₂ (by rwa [if_pos hp] at h)
    · rw [if_neg hp] at h; exact absurd h (by simp)

theorem dropWhile_append_cons {p : Char → Bool} : ∀ (l₁ l₂ : List Char) (c : Char) (cs : List Char),
    l₁.dropWhile p = c :: cs → (l₁ ++ l₂).dropWhile p = (c :: cs) ++ l₂ := by
  intro l₁
  induction l₁ with
  | nil => intro l₂ c cs h; simp [List.dropWhile] at h
  | cons a as ih =>
    intro l₂ c cs h
    rw [List.dropWhile_cons] at h
    rw [List.cons_append, List.dropWhile_cons]
    by_cases hp : p a
    · rw [if_pos hp] at h ⊢
      exact ih l₂ c cs h
    · rw [if_neg hp] at h ⊢
      rw [← h]
      simp

/-- Appending only whitespace to a string does not change its trimmed
form. -/
theorem trim_append_ws (s t : List Char) (ht : ∀ c ∈ t, isspaceA c = true) :
    trim_ascii (s ++ t) = trim_ascii s := by
  unfold trim_ascii
  match hds : s.dropWhile isspaceA with
  | [] =>
    rw [dropWhile_append_nil s t hds, dropWhile_all_nil t ht]
  | c :: cs =>
    rw [dropWhile_append_cons s t c cs hds, List.reverse_append,
      dropWhile_append_nil (t.reverse) ((c :: cs).reverse)
        (dropWhile_all_nil t.reverse (fun x hx => ht x (List.mem_reverse.mp hx)))]

theorem validateLine_congr (l₁ l₂ : List Char) (h : trim_ascii l₁ = trim_ascii l₂) :
    validateLine l₁ = validateLine l₂ := by
  unfold validateLine
  rw [h]

/-- A line made entirely of whitespace is silently skipped: no reading, no
report. -/
theorem validateLine_all_space (line : List Char) (h : ∀ c ∈ line, isspaceA c = true) :
    validateLine line = .skipped := by
  have htr : trim_ascii line = [] := by
    unfold trim_ascii
    rw [dropWhile_all_nil line h]
    rfl
  simp [validateLine, htr]

/-- The write attempts of the oracle-tracking gate do not depend on the
oracle at all: they are exactly the changed values. -/
theorem gateRunE_attempts : ∀ (rs : List (List Char)) (oracle : Nat → Bool) (st : GateState),
    (gateRunE oracle st rs).attempts = st.attempts ++ gateRun st.lastWritten rs := by
  intro rs
  induction rs with
  | nil => intro oracle st; simp [gateRunE, gateRun]
  | cons r rs ih =>
    intro oracle st
    simp only [gateRunE, gateRun, gateStepE]
    by_cases hr : r = st.lastWritten
    · rw [if_pos hr, if_pos hr]
      exact ih oracle st
    · rw [if_neg hr, if_neg hr]
      rw [ih oracle]
      simp

/-- The kept values of `destutter'` by `≠` are the initial value followed
by exactly the gate's written values. -/
theorem destutter_gate : ∀ (rs : List (List Char)) (last : List Char),
    List.destutter' (· ≠ ·) last rs = last :: gateRun last rs := by
  intro rs
  induction rs with
  | nil => intro last; simp [List.destutter'_nil, gateRun]
  | cons r rs ih =>
    intro last
    rw [List.destutter'_cons]
    by_cases hr : last ≠ r
    · rw [if_pos hr, ih r]
      simp only [gateRun]
      rw [if_neg (Ne.symm hr)]
    · rw [if_neg hr]
      have hl : last = r := not_not.mp hr
      rw [ih last]
      simp only [gateRun]
      rw [if_pos hl.symm]

/-- The `lastValueWritten` after the gate processes a reading sequence. -/
def gateLast (last : List Char) : List (List Char) → List Char
  | [] => last
  | r :: rs => if r = last then gateLast last rs else gateLast r rs

/-- Processing raw lines in order is the change-detection gate run over the
validated readings those lines produce (skipped and reported lines
contribute nothing). -/
theorem processLines_gate : ∀ (ls : List (List Char)) (last : List Char),
    processLines last ls
      = (gateLast last (ls.filterMap (fun l => readingOf (validateLine l))),
         gateRun last (ls.filterMap (fun l => readingOf (validateLine l)))) := by
  intro ls
  induction ls with
  | nil => intro last; simp [processLines, gateLast, gateRun]
  | cons l ls ih =>
    intro last
    simp only [processLines, processLine, List.filterMap_cons]
    match hv : validateLine l with
    | .skipped => simp only [readingOf, Option.toList, ih last, List.nil_append]
    | .reported tx => simp only [readingOf, Option.toList, ih last, List.nil_append]
    | .reading t =>
      simp only [readingOf]
      by_cases ht : t = last
      · rw [if_pos ht]
        simp [Option.toList, ih last, gateRun, gateLast, ht, readingOf]
      · rw [if_neg ht]
        simp [Option.toList, ih t, gateRun, gateLast, ht, readingOf]

/-- The read loop's buffer never holds a newline between iterations. -/
theorem runLoop_no_nl : ∀ (rs : List ReadResult) (st : LoopState), '\n' ∉ st.readBuffer →
    '\n' ∉ (runLoop st rs).readBuffer := by
  intro rs
  induction rs with
  | nil => intro st h; exact h
  | cons r rs ih =>
    intro st h
    match r with
    | .readError => exact ih st h
    | .data [] => exact ih st h
    | .data (b :: bs) =>
      simp only [runLoop]
      apply ih
      rw [innerLoop_decomp, drainLines_eq]
      exact lastSeg_no_nl _

theorem runLoop_data_cons (st : LoopState) (b : Char) (bs : List Char) (rs : List ReadResult) :
    runLoop st (ReadResult.data (b :: bs) :: rs)
      = runLoop
          { readBuffer := (drainLines (st.readBuffer ++ (b :: bs))).2,
            lastValueWritten :=
              (processLines st.lastValueWritten (drainLines (st.readBuffer ++ (b :: bs))).1).1,
            valueWrites :=
              st.valueWrites
                ++ (processLines st.lastValueWritten (drainLines (st.readBuffer ++ (b :: bs))).1).2 }
          rs := by
  simp only [runLoop, innerLoop_decomp]

/-- C1: for every sequence of byte chunks fed to the read loop, the
extracted complete lines are, in content and order, the newline-split
segments of the concatenation of all chunks except the trailing one (each
extracted line carrying its `'\n'` terminator back), the trailing
unterminated segment being withheld in the buffer; in particular the
chunks `"12"` then `".5\n"` produce the single reading `"12.5"`. -/
theorem claim1_line_assembly :
    (∀ chunks : List (List Char),
      (runAssembler [] chunks).1
          = ((splitNl chunks.flatten).dropLast).map (fun a => a ++ ['\n'])
        ∧ (runAssembler [] chunks).2 = lastSeg chunks.flatten)
    ∧ (runAssembler [] ["12".data, ".5\n".data]).1.map validateLine
        = [LineResult.reading "12.5".data] := by
  have hgen : ∀ chunks : List (List Char),
      runAssembler [] chunks
        = (((splitNl chunks.flatten).dropLast).map (fun a => a ++ ['\n']),
            lastSeg chunks.flatten) := by
    intro chunks
    have h := runAssembler_spec chunks [] (by simp)
    simpa using h
  constructor
  · intro chunks
    rw [hgen chunks]
    exact ⟨rfl, rfl⟩
  · rw [hgen ["12".data, ".5\n".data]]
    decide

/-- C8: the line buffer never contains a newline byte once a chunk has
been drained: after the extraction loop, after any chunk sequence, and at
the start of every read-loop iteration. -/
theorem claim8_buffer_no_newline :
    (∀ buf : List Char, ((drainLines buf).2).count '\n' = 0)
    ∧ (∀ chunks : List (List Char), ((runAssembler [] chunks).2).count '\n' = 0)
    ∧ (∀ reads : List ReadResult, ((runLoop initState reads).readBuffer).count '\n' = 0) := by
  refine ⟨?_, ?_, ?_⟩
  · intro buf
    rw [drainLines_eq]
    exact List.count_eq_zero.mpr (lastSeg_no_nl buf)
  · intro chunks
    have h := runAssembler_spec chunks [] (by simp)
    rw [h]
    exact List.count_eq_zero.mpr (lastSeg_no_nl _)
  · intro reads
    exact List.count_eq_zero.mpr (runLoop_no_nl reads initState (by simp [initState]))

/-- C10: terminating a line body with `"\r\n"` gives the same validation
outcome (and the same reading text) as terminating it with `"\n"`: the
carriage return is trimmed away as whitespace. -/
theorem claim10_crlf : ∀ body : List Char,
    validateLine (body ++ ['\r', '\n']) = validateLine (body ++ ['\n']) := by
  intro body
  apply validateLine_congr
  rw [trim_append_ws body ['\r', '\n']
      (by intro c hc; simp at hc; rcases hc with rfl | rfl <;> rfl),
    trim_append_ws body ['\n']
      (by intro c hc; simp at hc; rw [hc]; rfl)]

/-- C3, counterexample: both directions of "a Reading iff the entire
trimmed text is a decimal numeric literal" fail on the code — the
validator accepts the line `"inf"`, which is not a decimal floating-point
literal, and it rejects the line `"1e999"`, which is one entirely but
whose value overflows `double` range, so `std::stod` throws
`std::out_of_range` and the line is reported and dropped. -/
theorem claim3_decimal_counterexample :
    (validateLine "inf\n".data = LineResult.reading "inf".data
      ∧ isDecimalLit "inf".data = false)
    ∧ (validateLine "1e999\n".data = LineResult.reported "1e999".data
      ∧ isDecimalLit "1e999".data = true) := by
  constructor
  · decide
  · decide

/-- C3, amended: the validator yields a Reading for a line exactly when the
trimmed text is non-empty, is entirely consumed by a `strtod`-style
numeric literal — decimal or hexadecimal floating point, or an
infinity/NaN form — and that literal's value raises no `double` range
error; the reading carries the trimmed text itself. -/
theorem claim3_strtod_iff : ∀ (line t : List Char),
    validateLine line = LineResult.reading t ↔
      (t = trim_ascii line ∧ t ≠ [] ∧ strtodLen t = some t.length
        ∧ stodRangeError t = false) :=
  validate_reading_iff

/-- C4: `"12.5 extra"` is rejected (reported), `"  42  "` yields the
reading `"42"` (the trimmed original text), `"-3.14"` yields the reading
`"-3.14"`; and in general a reading's text is consumed entirely by the
numeric parse — trailing content beyond trimmed whitespace invalidates the
line. -/
theorem claim4_validator_examples :
    validateLine "12.5 extra\n".data = LineResult.reported ("12.5 extra".data)
    ∧ validateLine "  42  \n".data = LineResult.reading "42".data
    ∧ validateLine "-3.14\n".data = LineResult.reading "-3.14".data
    ∧ ∀ (line t : List Char), validateLine line = LineResult.reading t →
        strtodLen t = some t.length := by
  refine ⟨by decide, by decide, by decide, ?_⟩
  intro line t h
  exact ((validate_reading_iff line t).mp h).2.2.1

theorem claim4_validator_examples_witness :
    strtodLen "42".data = some ("42".data).length :=
  claim4_validator_examples.2.2.2 "  42  \n".data "42".data (by decide)

/-- C7: a line that is empty or all whitespace is silently skipped — no
reading and no invalid-content report — unlike a non-numeric line, which is
reported. -/
theorem claim7_blank_skipped :
    (∀ line : List Char, (∀ c ∈ line, isspaceA c = true) →
        validateLine line = LineResult.skipped)
    ∧ validateLine "abc\n".data = LineResult.reported "abc".data :=
  ⟨validateLine_all_space, by decide⟩

theorem claim7_blank_skipped_witness :
    validateLine (' ' :: '\t' :: '\r' :: '\n' :: []) = LineResult.skipped :=
  claim7_blank_skipped.1 (' ' :: '\t' :: '\r' :: '\n' :: [])
    (by intro c hc; simp at hc; rcases hc with rfl | rfl | rfl | rfl <;> rfl)

/-- C6: `lastValueWritten` starts empty, every reading's text is non-empty
(empty-after-trim lines are skipped before validation), so the first
reading can never equal the initial empty string and is always
forwarded. -/
theorem claim6_first_forwarded :
    initState.lastValueWritten = []
    ∧ (∀ (line t : List Char), validateLine line = LineResult.reading t → t ≠ [])
    ∧ (∀ (t : List Char) (rs : List (List Char)), t ≠ [] →
        gateRun [] (t :: rs) = t :: gateRun t rs) := by
  refine ⟨rfl, ?_, ?_⟩
  · intro line t h
    exact ((validate_reading_iff line t).mp h).2.1
  · intro t rs ht
    simp only [gateRun]
    rw [if_neg ht]

theorem claim6_first_forwarded_witness :
    ("5".data ≠ ([] : List Char))
    ∧ gateRun [] ["5".data] = ["5".data] := by
  constructor
  · exact claim6_first_forwarded.2.1 "5\n".data "5".data (by decide)
  · have h := claim6_first_forwarded.2.2 "5".data [] (by decide)
    rw [h]
    rfl

/-- C5: when a reading differs from `lastWritten`, `lastValueWritten` is
updated whatever the write outcome; the attempts do not depend on the
outcome oracle at all; after a failed write of `"10"`, the repeated
`"10"` triggers no new attempt, while `"20"` then `"10"` trigger fresh
attempts (both failing under the always-fail oracle). -/
theorem claim5_update_regardless :
    (∀ (oracle : Nat → Bool) (st : GateState) (r : List Char), r ≠ st.lastWritten →
        (gateStepE oracle st r).lastWritten = r)
    ∧ (∀ (oracle : Nat → Bool) (st : GateState) (rs : List (List Char)),
        (gateRunE oracle st rs).attempts = st.attempts ++ gateRun st.lastWritten rs)
    ∧ (gateRunE (fun _ => false) ⟨"10".data, [], [], 0⟩ ["10".data]).attempts = []
    ∧ (gateRunE (fun _ => false) ⟨"10".data, [], [], 0⟩ ["20".data, "10".data]).attempts
        = ["20".data, "10".data]
    ∧ (gateRunE (fun _ => false) ⟨"10".data, [], [], 0⟩ ["20".data, "10".data]).failed
        = ["20".data, "10".data] := by
  refine ⟨?_, ?_, by decide, by decide, by decide⟩
  · intro oracle st r hr
    simp only [gateStepE]
    rw [if_neg hr]
  · intro oracle st rs
    exact gateRunE_attempts rs oracle st

theorem claim5_update_regardless_witness :
    (gateStepE (fun _ => false) ⟨[], [], [], 0⟩ "5".data).lastWritten = "5".data :=
  claim5_update_regardless.1 (fun _ => false) ⟨[], [], [], 0⟩ "5".data (by decide)

/-- C2: the gate writes exactly when the reading differs from the last
remembered text — over raw lines, the write attempts are the gate run on
the validated readings; the written values are the `≠`-destuttering of the
reading sequence; an immediately repeated reading never adds a write; and
the lines `10, 10, 20, 10` produce exactly the writes `10, 20, 10`. -/
theorem claim2_change_gate :
    (∀ (last : List Char) (ls : List (List Char)),
        (processLines last ls).2
          = gateRun last (ls.filterMap (fun l => readingOf (validateLine l))))
    ∧ (∀ (last : List Char) (rs : List (List Char)),
        List.destutter' (· ≠ ·) last rs = last :: gateRun last rs)
    ∧ (∀ (last r : List Char) (rs : List (List Char)),
        gateRun last (r :: r :: rs) = gateRun last (r :: rs))
    ∧ (wmain ⟨true, true, true, true, true, true⟩
          [ReadResult.data ("10\n10\n20\n10\n".data)]).valueWrites
        = ["10".data, "20".data, "10".data] := by
  refine ⟨?_, ?_, ?_, ?_⟩
  · intro last ls
    rw [processLines_gate ls last]
  · intro last rs
    exact destutter_gate rs last
  · intro last r rs
    by_cases hr : r = last
    · simp [gateRun, hr]
    · simp [gateRun, hr]
  · show (runLoop initState
        [ReadResult.data
          ('1' :: '0' :: '\n' :: '1' :: '0' :: '\n' :: '2' :: '0' :: '\n' :: '1' :: '0' :: '\n' :: [])]).valueWrites
      = ["10".data, "20".data, "10".data]
    rw [runLoop_data_cons]
    simp only [runLoop, initState]
    rw [drainLines_eq]
    decide

/-- C9, counterexample: a failure of the transport's read-timeout
configuration (`SetCommTimeouts`, whose result the code never checks at
source line 95) does not terminate the process — with every other startup
step succeeding, the read loop still executes its iteration and the
process exits with status 0, refuting "the transport cannot be ...
configured ... causes the process to terminate with a non-zero exit status
without executing any read-loop iteration". -/
theorem claim9_startup_counterexample :
    (wmain ⟨true, true, true, false, true, true⟩ [ReadResult.readError]).exitCode = 0
    ∧ (wmain ⟨true, true, true, false, true, true⟩ [ReadResult.readError]).iterations = 1 :=
  ⟨rfl, rfl⟩

/-- C9, amended: every *checked* startup failure — `CreateFileW`,
`GetCommState`, `SetCommState` or `RegCreateKeyExW` failing — makes the
process exit with code 1 before any read-loop iteration, whatever the
`SetCommTimeouts` and metadata-write outcomes; when these four checked
steps succeed the process runs the loop and exits 0 on the cooperative
shutdown; and the `SetCommTimeouts` outcome is entirely unobservable — the
code ignores its result. -/
theorem claim9_startup_exit : ∀ (env : StartupEnv) (reads : List ReadResult),
    ((env.openOk = false ∨ env.getCommOk = false ∨ env.setCommOk = false
        ∨ env.regCreateOk = false) →
      (wmain env reads).exitCode = 1 ∧ (wmain env reads).iterations = 0)
    ∧ (env.openOk = true → env.getCommOk = true → env.setCommOk = true →
        env.regCreateOk = true → (wmain env reads).exitCode = 0)
    ∧ (∀ b : Bool, wmain env reads = wmain { env with setTimeoutsOk := b } reads) := by
  intro env reads
  obtain ⟨o, g, s, st, rc, nw⟩ := env
  refine ⟨?_, ?_, ?_⟩
  · intro h
    match o, g, s, rc, h with
    | false, _, _, _, _ => exact ⟨rfl, rfl⟩
    | true, false, _, _, _ => exact ⟨rfl, rfl⟩
    | true, true, false, _, _ => exact ⟨rfl, rfl⟩
    | true, true, true, false, _ => exact ⟨rfl, rfl⟩
    | true, true, true, true, h => simp at h
  · intro h1 h2 h3 h4
    match o, g, s, rc, h1, h2, h3, h4 with
    | true, true, true, true, _, _, _, _ => rfl
  · intro b
    rfl

theorem claim9_startup_exit_witness :
    ((wmain ⟨false, true, true, true, true, true⟩ [ReadResult.readError]).exitCode = 1
      ∧ (wmain ⟨false, true, true, true, true, true⟩ [ReadResult.readError]).iterations = 0)
    ∧ (wmain ⟨true, true, true, true, true, true⟩ []).exitCode = 0
    ∧ wmain ⟨true, true, true, true, true, true⟩ []
        = wmain ⟨true, true, true, false, true, true⟩ [] := by
  refine ⟨?_, ?_, ?_⟩
  · exact (claim9_startup_exit ⟨false, true, true, true, true, true⟩
      [ReadResult.readError]).1 (Or.inl rfl)
  · exact (claim9_startup_exit ⟨true, true, true, true, true, true⟩ []).2.1 rfl rfl rfl rfl
  · exact (claim9_startup_exit ⟨true, true, true, true, true, true⟩ []).2.2 false
